import Mathlib

/-!
Shallow embedding of `src/concurrent_hash_map.h` (class `ConcurrentHashMap<K, V, Hash>`).

The C++ class is a lock-striped hash map: a vector of buckets (`table_`), a fixed
vector of mutexes (`mutex_`, one per partition), an entry counter (`size_`) and the
current bucket count (`buckets_ = table_.size()`).  All claims under scrutiny are
about the sequential (quiescent) semantics of the operations: each operation is a
pure function on an explicit state record, and the mutexes only select a partition
index, so the lock array is represented by its length (`parts = mutex_.size()`).

Hash values are modelled as natural numbers standing for the `uint64_t` value
returned by `hasher_`; every use in the source is of the form `hash % n`, which
coincides with `Nat` arithmetic.  `size_t` arithmetic that can wrap (the
constructor's rounding computation, which mixes `int` and `size_t`) is modelled
with an explicit `% 2 ^ 64`.  C++ `int` division (truncation toward zero) is
`Int.tdiv`, and the `int` to `size_t` conversion is `Int.emod _ (2 ^ 64)`.
-/

set_option autoImplicit false
set_option linter.unusedSectionVars false

namespace ConcurrentHashMap

/-- State of one `ConcurrentHashMap` instance: `table` is `table_` (a vector of
bucket chains), `parts` is `mutex_.size()` (the partition count, fixed at
construction), `size` is `size_`, `buckets` is `buckets_`, and `hasher` is
`hasher_` (returning the `uint64_t` hash value). -/
structure HashMapState (K V : Type) where
  table : List (List (K × V))
  parts : Nat
  size : Nat
  buckets : Nat
  hasher : K → Nat

/-- Source constant `kUndefinedSize = -1` (an `int`). -/
def kUndefinedSize : Int := -1

/-- Source constant `kDefaultConcurrencyLevel = 8`. -/
def kDefaultConcurrencyLevel : Nat := 8

/-- Source constant `kLoadFactor = 3`. -/
def kLoadFactor : Nat := 3

variable {K V : Type} [DecidableEq K] [Inhabited V]

/-- The scan loop `for (el : chain) if (el.first == key) ...` used by `Insert`
to detect a duplicate key: whether the chain holds the key. -/
def containsKey (chain : List (K × V)) (key : K) : Bool :=
  match chain with
  | [] => false
  | el :: rest => if el.1 = key then true else containsKey rest key

/-- The scan loop used by `Find` and `At`: the value stored with the first
entry of the chain whose key equals `key`, if any. -/
def chainFind (chain : List (K × V)) (key : K) : Option V :=
  match chain with
  | [] => none
  | el :: rest => if el.1 = key then some el.2 else chainFind rest key

/-- The counting loop of `Erase`: `el_idx`, the index of the first entry whose
key equals `key`, or the chain length when there is none. -/
def findKeyIdx (chain : List (K × V)) (key : K) : Nat :=
  match chain with
  | [] => 0
  | el :: rest => if el.1 = key then 0 else findKeyIdx rest key + 1

/-- The load-factor breach test `(size_ + buckets_ - 1) / buckets_ > kLoadFactor`
computed (on `size_t`) both by `Insert` after a successful insertion and by
`Rehash` once all locks are held. -/
def LoadBreach (s : HashMapState K V) : Prop :=
  kLoadFactor < (s.size + s.buckets - 1) / s.buckets

instance (s : HashMapState K V) : Decidable (LoadBreach s) := by
  unfold LoadBreach; infer_instance

/-- Lines 18-23 of the source: the new bucket count chosen by `Rehash`, namely
`size_` rounded up to a multiple of `mutex_.size()`. -/
def newBucketCnt (s : HashMapState K V) : Nat :=
  if s.size % s.parts = 0 then s.size
  else s.size + s.parts - s.size % s.parts

/-- One step of the redistribution loop body of `Rehash`:
`temp[hasher_(el.first) % new_bucket_cnt].push_back(el)`. -/
def pushEntry (hasher : K → Nat) (n : Nat) (acc : List (List (K × V)))
    (el : K × V) : List (List (K × V)) :=
  acc.set (hasher el.1 % n) (acc.getD (hasher el.1 % n) [] ++ [el])

/-- `ConcurrentHashMap::Rehash`: with all locks held, re-validate the breach;
if it still holds, round `size_` up to a multiple of the partition count,
allocate a fresh table of that many buckets and push every entry of the old
table into its new bucket, then install the new table and bucket count. -/
def Rehash (s : HashMapState K V) : HashMapState K V :=
  if LoadBreach s then
    { s with
      table := s.table.foldl
        (fun acc vec => vec.foldl (pushEntry s.hasher (newBucketCnt s)) acc)
        (List.replicate (newBucketCnt s) []),
      buckets := newBucketCnt s }
  else s

/-- The local `threads_cnt = std::max(8, expected_threads_count)` of the
constructor (line 51), which becomes the mutex count. -/
def threadsCnt (expected_threads_count : Int) : Nat :=
  (max 8 expected_threads_count).toNat

/-- The local `size` of the constructor's sized branch (lines 56-62): the
bucket goal `(expected_size + kLoadFactor - 1) / kLoadFactor` (C++ `int`
division, truncating toward zero), rounded up to a multiple of `threads_cnt`
in `size_t` arithmetic: the `int` operand converts to `size_t` by wrapping
modulo `2 ^ 64`, and the rounding sum wraps the same way. -/
def initBuckets (expected_size expected_threads_count : Int) : Nat :=
  let goal : Int := (expected_size + (kLoadFactor : Int) - 1).tdiv (kLoadFactor : Int)
  let goalU : Nat := (goal % (2 ^ 64 : Int)).toNat
  if goalU % threadsCnt expected_threads_count = 0 then goalU
  else (goalU + threadsCnt expected_threads_count
    - goalU % threadsCnt expected_threads_count) % 2 ^ 64

/-- The three-argument constructor
`ConcurrentHashMap(int expected_size, int expected_threads_count, hasher)`
(the one- and two-argument forms delegate to it with `kUndefinedSize` and
`kDefaultConcurrencyLevel`).  With an undefined expected size the table gets
`threads_cnt` empty buckets, otherwise `initBuckets` of them.  `buckets_` is
set to `table_.size()` and `size_` to zero.  (`vec.reserve` only touches
capacity and has no semantic content; an astronomically large rounded size
would make `resize` throw `bad_alloc`, which the spec puts out of scope, so
allocation is modelled as always succeeding.) -/
def mkConcurrentHashMap (expected_size expected_threads_count : Int)
    (hasher : K → Nat) : HashMapState K V :=
  if expected_size = kUndefinedSize then
    { table := List.replicate (threadsCnt expected_threads_count) [],
      parts := threadsCnt expected_threads_count,
      size := 0, buckets := threadsCnt expected_threads_count, hasher := hasher }
  else
    { table := List.replicate (initBuckets expected_size expected_threads_count) [],
      parts := threadsCnt expected_threads_count,
      size := 0, buckets := initBuckets expected_size expected_threads_count,
      hasher := hasher }

/-- The partition (mutex) index `hash % mutex_.size()` computed by every
single-key operation. -/
def lockIndex (s : HashMapState K V) (key : K) : Nat :=
  s.hasher key % s.parts

/-- The bucket index `hash % buckets_` re-derived under the lock by every
single-key operation. -/
def bucketIndex (s : HashMapState K V) (key : K) : Nat :=
  s.hasher key % s.buckets

/-- `ConcurrentHashMap::Insert`: under the key's partition lock, scan the
bucket `hash % buckets_`; on a duplicate return `false` with nothing changed,
otherwise append `{key, value}` to the bucket and bump `size_`.  After
releasing the lock, re-read `size_` and `buckets_` and call `Rehash` when the
load factor is breached; return `true`. -/
def Insert (s : HashMapState K V) (key : K) (value : V) :
    Bool × HashMapState K V :=
  let idx := s.hasher key % s.buckets
  if containsKey (s.table.getD idx []) key then (false, s)
  else
    let s1 : HashMapState K V :=
      { s with table := s.table.set idx (s.table.getD idx [] ++ [(key, value)]),
               size := s.size + 1 }
    if LoadBreach s1 then (true, Rehash s1) else (true, s1)

/-- `ConcurrentHashMap::Erase`: under the key's partition lock, compute the
index `el_idx` of the first entry of bucket `hash % buckets_` with an equal
key; if the scan fell off the end return `false`, otherwise erase that entry,
decrement `size_` and return `true`. -/
def Erase (s : HashMapState K V) (key : K) : Bool × HashMapState K V :=
  let idx := s.hasher key % s.buckets
  let chain := s.table.getD idx []
  let el_idx := findKeyIdx chain key
  if el_idx = chain.length then (false, s)
  else
    (true, { s with table := s.table.set idx (chain.eraseIdx el_idx),
                    size := s.size - 1 })

/-- `ConcurrentHashMap::Clear`: with every lock held, clear every bucket chain
and reset `size_` to zero (the table length, `buckets_` and the mutexes are
untouched). -/
def Clear (s : HashMapState K V) : HashMapState K V :=
  { s with table := s.table.map (fun _ => []), size := 0 }

/-- `ConcurrentHashMap::Find`: under the key's partition lock, scan bucket
`hash % buckets_`; return `{true, value}` on a match and `{false, {}}` (a
default-constructed value) otherwise.  The operation is `const`: it is a pure
function of the state. -/
def Find (s : HashMapState K V) (key : K) : Bool × V :=
  match chainFind (s.table.getD (s.hasher key % s.buckets) []) key with
  | some v => (true, v)
  | none => (false, default)

/-- `ConcurrentHashMap::At`: like `Find`, but `throw std::out_of_range("No such
element")` on a miss, modelled as `Except.error`.  Also `const`. -/
def At (s : HashMapState K V) (key : K) : Except String V :=
  match chainFind (s.table.getD (s.hasher key % s.buckets) []) key with
  | some v => Except.ok v
  | none => Except.error "No such element"

/-- `ConcurrentHashMap::Size`: the value of the atomic counter `size_`. -/
def Size (s : HashMapState K V) : Nat :=
  s.size

/-- Membership of one key/value entry somewhere in the bucket table. -/
def HasEntry (s : HashMapState K V) (key : K) (value : V) : Prop :=
  (key, value) ∈ s.table.flatten

instance (s : HashMapState K V) (key : K) (value : V) [DecidableEq V] :
    Decidable (HasEntry s key value) := by
  unfold HasEntry; infer_instance

/-- Structural well-formedness of a state: at least one partition, a positive
bucket count that the partition count divides and that equals the table
length, a size counter equal to the number of stored entries, every entry
sitting in the bucket selected by its hash, and no key stored twice. -/
def WF (s : HashMapState K V) : Prop :=
  0 < s.parts ∧ 0 < s.buckets ∧ s.parts ∣ s.buckets ∧
  s.buckets = s.table.length ∧
  s.size = s.table.flatten.length ∧
  (∀ i, (hi : i < s.table.length) →
    ∀ p ∈ s.table.get ⟨i, hi⟩, s.hasher p.1 % s.buckets = i) ∧
  (s.table.flatten.map Prod.fst).Nodup

instance (s : HashMapState K V) : Decidable (WF s) := by
  unfold WF; infer_instance

/-- States reachable by completed operations from a construction with
`int`-range arguments whose expected size is either `kUndefinedSize` or at
least 1 (an expected size of 0, or a negative one other than -1, yields a
table with zero buckets, after which every operation divides by zero).  This
set is a superset of the constructions with fully defined C++ behaviour: it
also admits `expected_size ∈ {INT_MAX - 2, INT_MAX - 1, INT_MAX}`, where the
source's `int` sum `expected_size + kLoadFactor - 1` overflows and
`initBuckets` idealises it as unbounded arithmetic, so a theorem quantified
over `Reachable` is at least as strong as one over the defined states
(`ReachableDefined` below is the exact defined-behaviour subset).  `Rehash`
is listed as a step although the code only ever reaches it through
`Insert`. -/
inductive Reachable : HashMapState K V → Prop
  | ctor (expected_size expected_threads_count : Int) (hasher : K → Nat)
      (hes : expected_size = kUndefinedSize ∨
        (1 ≤ expected_size ∧ expected_size ≤ 2 ^ 31 - 1))
      (htc : expected_threads_count ≤ 2 ^ 31 - 1) :
      Reachable (mkConcurrentHashMap expected_size expected_threads_count hasher)
  | insertStep (s : HashMapState K V) (key : K) (value : V) :
      Reachable s → Reachable (Insert s key value).2
  | eraseStep (s : HashMapState K V) (key : K) :
      Reachable s → Reachable (Erase s key).2
  | clearStep (s : HashMapState K V) :
      Reachable s → Reachable (Clear s)
  | rehashStep (s : HashMapState K V) :
      Reachable s → Reachable (Rehash s)

/-- States reachable by completed operations from a construction on which the
C++ constructor has fully defined behaviour: the expected size is
`kUndefinedSize`, or positive with `expected_size ≤ INT_MAX - 3 = 2^31 - 4`,
so that line 57's `int` sum `expected_size + kLoadFactor - 1` cannot overflow
(and the thread hint is in `int` range). -/
inductive ReachableDefined : HashMapState K V → Prop
  | ctor (expected_size expected_threads_count : Int) (hasher : K → Nat)
      (hes : expected_size = kUndefinedSize ∨
        (1 ≤ expected_size ∧ expected_size ≤ 2 ^ 31 - 4))
      (htc : expected_threads_count ≤ 2 ^ 31 - 1) :
      ReachableDefined (mkConcurrentHashMap expected_size expected_threads_count hasher)
  | insertStep (s : HashMapState K V) (key : K) (value : V) :
      ReachableDefined s → ReachableDefined (Insert s key value).2
  | eraseStep (s : HashMapState K V) (key : K) :
      ReachableDefined s → ReachableDefined (Erase s key).2
  | clearStep (s : HashMapState K V) :
      ReachableDefined s → ReachableDefined (Clear s)
  | rehashStep (s : HashMapState K V) :
      ReachableDefined s → ReachableDefined (Rehash s)

/-- A small concrete well-formed state used to instantiate theorems: two
partitions, four buckets, entries 0 ↦ 10 and 5 ↦ 50, identity hashing. -/
def sampleState : HashMapState Nat Nat :=
  { table := [[(0, 10)], [(5, 50)], [], []], parts := 2, size := 2,
    buckets := 4, hasher := fun k => k }

/-- A concrete well-formed state whose load factor is breached (eight entries
in two buckets), as arises between an insertion and its growth check. -/
def overfullState : HashMapState Nat Nat :=
  { table := [[(0, 1), (2, 2), (4, 3), (6, 4)],
      [(1, 5), (3, 6), (5, 7), (7, 8)]],
    parts := 2, size := 8, buckets := 2, hasher := fun k => k }

section ListFacts

variable {α β : Type}

/-- Reading inside the bounds with a default is plain indexing. -/
theorem getD_eq_get (L : List α) (i : Nat) (d : α) (hi : i < L.length) :
    L.getD i d = L.get ⟨i, hi⟩ := by
  simp [List.getD_eq_getElem?_getD, List.getElem?_eq_getElem hi, List.get_eq_getElem]

/-- Reading past the end with a default yields the default. -/
theorem getD_of_le_length (L : List α) (i : Nat) (d : α) (hi : L.length ≤ i) :
    L.getD i d = d := by
  simp [List.getD_eq_getElem?_getD, List.getElem?_eq_none hi]

/-- Reading back an in-bounds write. -/
theorem getD_set_self (L : List α) (i : Nat) (b d : α) (hi : i < L.length) :
    (L.set i b).getD i d = b := by
  rw [getD_eq_get _ _ _ (by simpa using hi)]
  simp [List.get_eq_getElem]

/-- A write at one index does not change reads at another. -/
theorem getD_set_ne (L : List α) (i j : Nat) (b d : α) (h : i ≠ j) :
    (L.set i b).getD j d = L.getD j d := by
  simp [List.getD_eq_getElem?_getD, List.getElem?_set_ne h]

/-- Reading a replicated list yields the replicated element. -/
theorem getD_replicate (n i : Nat) (d : α) :
    (List.replicate n d).getD i d = d := by
  rcases lt_or_le i (List.replicate n d).length with h | h
  · rw [getD_eq_get _ _ _ h]
    simp [List.get_eq_getElem, List.getElem_replicate]
  · exact getD_of_le_length _ _ _ h

/-- A list splits around any in-bounds index. -/
theorem list_decomp (L : List α) (i : Nat) (hi : i < L.length) :
    L = L.take i ++ L.get ⟨i, hi⟩ :: L.drop (i + 1) := by
  conv_lhs => rw [← List.take_append_drop i L]
  rw [← List.getElem_cons_drop L i hi]
  simp [List.get_eq_getElem]

/-- An in-bounds write, written as a splice. -/
theorem set_decomp (L : List α) (i : Nat) (b : α) (hi : i < L.length) :
    L.set i b = L.take i ++ b :: L.drop (i + 1) := by
  rw [List.set_eq_take_append_cons_drop, if_pos hi]

/-- Flattening splits around any in-bounds bucket. -/
theorem flatten_decomp (L : List (List α)) (i : Nat) (hi : i < L.length) :
    L.flatten = (L.take i).flatten ++ L.get ⟨i, hi⟩ ++ (L.drop (i + 1)).flatten := by
  have h2 : (L.take i ++ L.get ⟨i, hi⟩ :: L.drop (i + 1)).flatten
      = (L.take i).flatten ++ L.get ⟨i, hi⟩ ++ (L.drop (i + 1)).flatten := by
    rw [List.flatten_append, List.flatten_cons, List.append_assoc]
  rw [← h2, ← list_decomp L i hi]

/-- Flattening after replacing one bucket. -/
theorem flatten_set (L : List (List α)) (i : Nat) (b : List α) (hi : i < L.length) :
    (L.set i b).flatten = (L.take i).flatten ++ b ++ (L.drop (i + 1)).flatten := by
  rw [set_decomp L i b hi, List.flatten_append, List.flatten_cons,
    List.append_assoc]

/-- Every member list embeds into the flattening. -/
theorem sublist_flatten_of_mem {l : List α} {L : List (List α)} (h : l ∈ L) :
    l.Sublist L.flatten := by
  obtain ⟨s, t, rfl⟩ := List.append_of_mem h
  rw [List.flatten_append, List.flatten_cons]
  exact ((l.sublist_append_left t.flatten).trans
    (List.sublist_append_right _ _))

end ListFacts

section ScanFacts

variable {K V : Type} [DecidableEq K] [Inhabited V]

/-- The duplicate scan succeeds exactly when the key occurs in the chain. -/
theorem containsKey_iff (chain : List (K × V)) (key : K) :
    containsKey chain key = true ↔ key ∈ chain.map Prod.fst := by
  induction chain with
  | nil => simp [containsKey]
  | cons el rest ih =>
    by_cases h : el.1 = key
    · simp [containsKey, h]
    · simp [containsKey, h, ih, Ne.symm h]

/-- The lookup scan misses exactly when the key does not occur in the chain. -/
theorem chainFind_eq_none_iff (chain : List (K × V)) (key : K) :
    chainFind chain key = none ↔ key ∉ chain.map Prod.fst := by
  induction chain with
  | nil => simp [chainFind]
  | cons el rest ih =>
    by_cases h : el.1 = key
    · simp [chainFind, h]
    · simp [chainFind, h, ih, Ne.symm h]

/-- A hit of the lookup scan is an entry of the chain. -/
theorem chainFind_mem {chain : List (K × V)} {key : K} {v : V}
    (h : chainFind chain key = some v) : (key, v) ∈ chain := by
  induction chain with
  | nil => simp [chainFind] at h
  | cons el rest ih =>
    by_cases he : el.1 = key
    · rw [chainFind, if_pos he] at h
      injection h with hv
      subst hv
      have hel : (key, el.2) = el := by rw [← he]
      rw [hel]
      exact List.mem_cons_self _ _
    · rw [chainFind, if_neg he] at h
      exact List.mem_cons_of_mem _ (ih h)

/-- On a chain with no repeated key, the lookup scan finds any stored entry. -/
theorem chainFind_of_mem_nodup {chain : List (K × V)} {key : K} {v : V}
    (hmem : (key, v) ∈ chain) (hnd : (chain.map Prod.fst).Nodup) :
    chainFind chain key = some v := by
  induction chain with
  | nil => simp at hmem
  | cons el rest ih =>
    rw [List.map_cons, List.nodup_cons] at hnd
    rcases List.mem_cons.1 hmem with rfl | hmem2
    · simp [chainFind]
    · have h1 : el.1 ≠ key := by
        intro he
        exact hnd.1 (he ▸ List.mem_map_of_mem Prod.fst hmem2)
      rw [chainFind, if_neg h1]
      exact ih hmem2 hnd.2

/-- When the key is absent, the counting scan of `Erase` runs off the end. -/
theorem findKeyIdx_of_not_mem {chain : List (K × V)} {key : K}
    (h : key ∉ chain.map Prod.fst) : findKeyIdx chain key = chain.length := by
  induction chain with
  | nil => simp [findKeyIdx]
  | cons el rest ih =>
    rw [List.map_cons] at h
    have h1 : el.1 ≠ key := fun he => h (by simp [he])
    rw [findKeyIdx, if_neg h1, List.length_cons, ih (fun hm => h (by simp [hm]))]

/-- When the key is present, the counting scan of `Erase` stops at the first
matching entry, and erasing at that index removes exactly that entry. -/
theorem findKeyIdx_spec {chain : List (K × V)} {key : K}
    (h : key ∈ chain.map Prod.fst) :
    ∃ l1 v l2, chain = l1 ++ (key, v) :: l2 ∧ key ∉ l1.map Prod.fst ∧
      findKeyIdx chain key = l1.length ∧
      chain.eraseIdx (findKeyIdx chain key) = l1 ++ l2 ∧
      findKeyIdx chain key < chain.length := by
  induction chain with
  | nil => simp at h
  | cons el rest ih =>
    by_cases he : el.1 = key
    · refine ⟨[], el.2, rest, ?_, by simp, ?_, ?_, ?_⟩
      · simp [← he]
      · simp [findKeyIdx, he]
      · simp [findKeyIdx, he]
      · simp [findKeyIdx, he]
    · have hr : key ∈ rest.map Prod.fst := by
        rcases List.mem_map.1 h with ⟨p, hp, hkey⟩
        rcases List.mem_cons.1 hp with rfl | hp2
        · exact absurd hkey he
        · exact hkey ▸ List.mem_map_of_mem Prod.fst hp2
      obtain ⟨l1, v, l2, hdec, hnm, hidx, herase, hlt⟩ := ih hr
      subst hdec
      refine ⟨el :: l1, v, l2, by simp, ?_, ?_, ?_, ?_⟩
      · simp only [List.map_cons, List.mem_cons]
        rintro (hk | hk)
        · exact he hk.symm
        · exact hnm hk
      · rw [findKeyIdx, if_neg he, hidx, List.length_cons]
      · rw [findKeyIdx, if_neg he, List.eraseIdx_cons_succ, herase,
          List.cons_append]
      · rw [findKeyIdx, if_neg he, List.length_cons]
        omega

end ScanFacts

section WFFacts

variable {K V : Type} [DecidableEq K] [Inhabited V]

theorem WF.parts_pos {s : HashMapState K V} (h : WF s) : 0 < s.parts :=
  h.1

theorem WF.buckets_pos {s : HashMapState K V} (h : WF s) : 0 < s.buckets :=
  h.2.1

theorem WF.parts_dvd {s : HashMapState K V} (h : WF s) : s.parts ∣ s.buckets :=
  h.2.2.1

theorem WF.buckets_eq_length {s : HashMapState K V} (h : WF s) :
    s.buckets = s.table.length :=
  h.2.2.2.1

theorem WF.size_eq {s : HashMapState K V} (h : WF s) :
    s.size = s.table.flatten.length :=
  h.2.2.2.2.1

theorem WF.placement {s : HashMapState K V} (h : WF s) :
    ∀ i, (hi : i < s.table.length) →
      ∀ p ∈ s.table.get ⟨i, hi⟩, s.hasher p.1 % s.buckets = i :=
  h.2.2.2.2.2.1

theorem WF.keys_nodup {s : HashMapState K V} (h : WF s) :
    (s.table.flatten.map Prod.fst).Nodup :=
  h.2.2.2.2.2.2

/-- The bucket index of any key is a legal table index. -/
theorem WF.bucketIndex_lt {s : HashMapState K V} (h : WF s) (k : K) :
    s.hasher k % s.buckets < s.table.length := by
  rw [← h.buckets_eq_length]
  exact Nat.mod_lt _ h.buckets_pos

/-- Placement restated through defaulted reads, for any index. -/
theorem WF.placementD {s : HashMapState K V} (h : WF s) (i : Nat) :
    ∀ p ∈ s.table.getD i [], s.hasher p.1 % s.buckets = i := by
  intro p hp
  rcases lt_or_le i s.table.length with hi | hi
  · rw [getD_eq_get _ _ _ hi] at hp
    exact h.placement i hi p hp
  · rw [getD_of_le_length _ _ _ hi] at hp
    exact absurd hp (List.not_mem_nil p)

/-- Under well-formedness an entry is stored anywhere iff it is stored in the
bucket its hash selects: exactly the chain every single-key operation scans. -/
theorem WF.hasEntry_iff_own {s : HashMapState K V} (h : WF s) (k : K) (v : V) :
    HasEntry s k v ↔ (k, v) ∈ s.table.getD (s.hasher k % s.buckets) [] := by
  constructor
  · intro hm
    rcases List.mem_flatten.1 hm with ⟨chain, hchain, hp⟩
    rcases List.mem_iff_get.1 hchain with ⟨⟨j, hj⟩, rfl⟩
    have hpl := h.placement j hj (k, v) hp
    subst hpl
    rw [getD_eq_get _ _ _ hj]
    exact hp
  · intro hm
    have hlt := h.bucketIndex_lt k
    rw [getD_eq_get _ _ _ hlt] at hm
    exact List.mem_flatten.2 ⟨_, List.get_mem _ _ _, hm⟩

/-- Every bucket chain of a well-formed state has pairwise distinct keys. -/
theorem WF.own_nodup {s : HashMapState K V} (h : WF s) (i : Nat) :
    ((s.table.getD i []).map Prod.fst).Nodup := by
  rcases lt_or_le i s.table.length with hi | hi
  · rw [getD_eq_get _ _ _ hi]
    exact List.Nodup.sublist
      ((sublist_flatten_of_mem (List.get_mem _ _ _)).map Prod.fst) h.keys_nodup
  · rw [getD_of_le_length _ _ _ hi]
    simp

/-- The lookup scan over the key's own bucket finds exactly the stored value. -/
theorem WF.chainFind_own {s : HashMapState K V} (h : WF s) (k : K) (v : V) :
    chainFind (s.table.getD (s.hasher k % s.buckets) []) k = some v ↔
      HasEntry s k v := by
  constructor
  · intro hf
    exact (h.hasEntry_iff_own k v).2 (chainFind_mem hf)
  · intro hm
    exact chainFind_of_mem_nodup ((h.hasEntry_iff_own k v).1 hm) (h.own_nodup _)

/-- The lookup scan over the key's own bucket misses exactly when the key is
absent from the whole table. -/
theorem WF.chainFind_own_none {s : HashMapState K V} (h : WF s) (k : K) :
    chainFind (s.table.getD (s.hasher k % s.buckets) []) k = none ↔
      ∀ v, ¬HasEntry s k v := by
  rw [chainFind_eq_none_iff]
  constructor
  · intro hk v hv
    exact hk (List.mem_map_of_mem Prod.fst ((h.hasEntry_iff_own k v).1 hv))
  · intro hv hk
    rcases List.mem_map.1 hk with ⟨⟨k1, w⟩, hp, hkey⟩
    cases hkey
    exact hv w ((h.hasEntry_iff_own k1 w).2 hp)

/-- The duplicate scan over the key's own bucket succeeds exactly when the key
is present somewhere in the table. -/
theorem WF.containsKey_own {s : HashMapState K V} (h : WF s) (k : K) :
    containsKey (s.table.getD (s.hasher k % s.buckets) []) k = true ↔
      ∃ v, HasEntry s k v := by
  rw [containsKey_iff]
  constructor
  · intro hk
    rcases List.mem_map.1 hk with ⟨⟨k1, w⟩, hp, hkey⟩
    cases hkey
    exact ⟨w, (h.hasEntry_iff_own k1 w).2 hp⟩
  · rintro ⟨v, hv⟩
    exact List.mem_map_of_mem Prod.fst ((h.hasEntry_iff_own k v).1 hv)

/-- A key absent from the table does not occur among the stored keys. -/
theorem WF.key_not_in_keys {s : HashMapState K V} (h : WF s) (k : K)
    (habs : ∀ v, ¬HasEntry s k v) : k ∉ s.table.flatten.map Prod.fst := by
  intro hk
  rcases List.mem_map.1 hk with ⟨⟨k1, w⟩, hp, hkey⟩
  cases hkey
  exact habs w hp

end WFFacts

section RoundUpFacts

/-- The rounding idiom shared by the constructor (lines 58-62) and `Rehash`
(lines 19-23): it produces the least multiple of `p` that is at least `a`. -/
theorem roundUp_spec (a p : Nat) (hp : 0 < p) :
    p ∣ (if a % p = 0 then a else a + p - a % p) ∧
    a ≤ (if a % p = 0 then a else a + p - a % p) ∧
    ∀ m, p ∣ m → a ≤ m → (if a % p = 0 then a else a + p - a % p) ≤ m := by
  by_cases h : a % p = 0
  · rw [if_pos h]
    exact ⟨Nat.dvd_of_mod_eq_zero h, le_refl a, fun m _ hm => hm⟩
  · rw [if_neg h]
    have hmod : a % p < p := Nat.mod_lt a hp
    have hdiv : p * (a / p) + a % p = a := Nat.div_add_mod a p
    refine ⟨⟨a / p + 1, ?_⟩, by omega, ?_⟩
    · rw [Nat.mul_add, Nat.mul_one]
      omega
    · rintro m ⟨t, rfl⟩ hm
      have h1 : a / p < t := by
        by_contra hc
        push_neg at hc
        have h2 : p * t ≤ p * (a / p) := Nat.mul_le_mul_left p hc
        omega
      have h3 : p * (a / p + 1) ≤ p * t := Nat.mul_le_mul_left p h1
      rw [Nat.mul_add, Nat.mul_one] at h3
      omega

variable {K V : Type} [DecidableEq K] [Inhabited V]

/-- The new bucket count of `Rehash` is the least multiple of the partition
count that is at least the current size. -/
theorem newBucketCnt_spec {s : HashMapState K V} (hp : 0 < s.parts) :
    s.parts ∣ newBucketCnt s ∧ s.size ≤ newBucketCnt s ∧
    ∀ m, s.parts ∣ m → s.size ≤ m → newBucketCnt s ≤ m := by
  unfold newBucketCnt
  exact roundUp_spec s.size s.parts hp

/-- A load-factor breach means strictly more than `kLoadFactor` entries per
bucket on average. -/
theorem loadBreach_size {s : HashMapState K V} (hb : LoadBreach s)
    (hpos : 0 < s.buckets) : 3 * s.buckets < s.size := by
  have h4 : 4 ≤ (s.size + s.buckets - 1) / s.buckets := hb
  rw [Nat.le_div_iff_mul_le hpos] at h4
  omega

/-- Under a breach the new bucket count is positive. -/
theorem newBucketCnt_pos {s : HashMapState K V} (hwf : WF s)
    (hb : LoadBreach s) : 0 < newBucketCnt s := by
  have h1 := loadBreach_size hb hwf.buckets_pos
  have h2 := (newBucketCnt_spec hwf.parts_pos).2.1
  have h3 := hwf.buckets_pos
  omega

/-- Under a breach the bucket count strictly grows. -/
theorem buckets_lt_newBucketCnt {s : HashMapState K V} (hwf : WF s)
    (hb : LoadBreach s) : s.buckets < newBucketCnt s := by
  have h1 := loadBreach_size hb hwf.buckets_pos
  have h2 := (newBucketCnt_spec hwf.parts_pos).2.1
  omega

end RoundUpFacts

section RehashFacts

variable {K V : Type} [DecidableEq K] [Inhabited V]

theorem Rehash_size (s : HashMapState K V) : (Rehash s).size = s.size := by
  unfold Rehash
  split <;> rfl

theorem Rehash_parts (s : HashMapState K V) : (Rehash s).parts = s.parts := by
  unfold Rehash
  split <;> rfl

theorem Rehash_hasher (s : HashMapState K V) :
    (Rehash s).hasher = s.hasher := by
  unfold Rehash
  split <;> rfl

theorem Rehash_of_not_breach {s : HashMapState K V} (hnb : ¬LoadBreach s) :
    Rehash s = s := by
  rw [Rehash, if_neg hnb]

theorem Rehash_of_breach {s : HashMapState K V} (hb : LoadBreach s) :
    Rehash s = { s with
      table := s.table.foldl
        (fun acc vec => vec.foldl (pushEntry s.hasher (newBucketCnt s)) acc)
        (List.replicate (newBucketCnt s) []),
      buckets := newBucketCnt s } := by
  rw [Rehash, if_pos hb]

theorem Rehash_buckets_of_breach {s : HashMapState K V} (hb : LoadBreach s) :
    (Rehash s).buckets = newBucketCnt s := by
  rw [Rehash_of_breach hb]

/-- The nested redistribution loops of `Rehash` are one fold over all stored
entries in table order. -/
theorem Rehash_table_foldl {s : HashMapState K V} (hb : LoadBreach s) :
    (Rehash s).table = s.table.flatten.foldl
      (pushEntry s.hasher (newBucketCnt s))
      (List.replicate (newBucketCnt s) []) := by
  rw [Rehash_of_breach hb]
  exact (List.foldl_flatten _ _ _).symm

/-- Pushing entries never changes the number of buckets. -/
theorem foldl_pushEntry_length (h : K → Nat) (n : Nat) (entries : List (K × V))
    (acc : List (List (K × V))) :
    (entries.foldl (pushEntry h n) acc).length = acc.length := by
  induction entries generalizing acc with
  | nil => rfl
  | cons el rest ih =>
    rw [List.foldl_cons, ih]
    simp [pushEntry, List.length_set]

/-- After pushing a list of entries into an `n`-bucket accumulator, bucket `j`
holds its previous contents followed by the pushed entries that hash to `j`,
in order. -/
theorem foldl_pushEntry_getD (h : K → Nat) (n : Nat) (hn : 0 < n)
    (entries : List (K × V)) (acc : List (List (K × V))) (hacc : acc.length = n)
    (j : Nat) :
    (entries.foldl (pushEntry h n) acc).getD j [] =
      acc.getD j [] ++ entries.filter (fun el => decide (h el.1 % n = j)) := by
  induction entries generalizing acc with
  | nil => simp
  | cons el rest ih =>
    rw [List.foldl_cons, List.filter_cons]
    have hlt : h el.1 % n < acc.length := by
      rw [hacc]
      exact Nat.mod_lt _ hn
    have hlen : (pushEntry h n acc el).length = n := by
      simp [pushEntry, List.length_set, hacc]
    by_cases hj : h el.1 % n = j
    · rw [if_pos (by simp [hj]), ih _ hlen]
      unfold pushEntry
      rw [hj, getD_set_self _ _ _ _ (by rw [← hj]; exact hlt),
        List.append_assoc, List.singleton_append]
    · rw [if_neg (by simp [hj]), ih _ hlen]
      unfold pushEntry
      rw [getD_set_ne _ _ _ _ _ hj]

/-- Flattening an empty bucket table gives no entries. -/
theorem flatten_replicate_nil {α : Type} (n : Nat) :
    (List.replicate n ([] : List α)).flatten = [] := by
  induction n with
  | zero => rfl
  | succ m ih => rw [List.replicate_succ, List.flatten_cons, ih, List.nil_append]

theorem Rehash_table_length {s : HashMapState K V} (hb : LoadBreach s) :
    (Rehash s).table.length = newBucketCnt s := by
  rw [Rehash_table_foldl hb, foldl_pushEntry_length, List.length_replicate]

/-- Bucket `j` of the rebuilt table is exactly the stored entries that hash to
`j` modulo the new bucket count, in table order. -/
theorem Rehash_getD {s : HashMapState K V} (hwf : WF s) (hb : LoadBreach s)
    (j : Nat) :
    (Rehash s).table.getD j [] = s.table.flatten.filter
      (fun el => decide (s.hasher el.1 % newBucketCnt s = j)) := by
  rw [Rehash_table_foldl hb,
    foldl_pushEntry_getD _ _ (newBucketCnt_pos hwf hb) _ _
      (List.length_replicate _ _) j,
    getD_replicate, List.nil_append]

end RehashFacts

section PermFacts

variable {α : Type}

/-- Concatenating over an index range, with one index contributing an extra
head element, is a permutation of pulling that element to the front. -/
theorem flatten_map_ite_cons (n i : Nat) (hi : i < n) (x : α) (g : Nat → List α) :
    ((List.range n).map (fun j => if i = j then x :: g j else g j)).flatten.Perm
      (x :: ((List.range n).map g).flatten) := by
  induction n with
  | zero => exact absurd hi (Nat.not_lt_zero i)
  | succ n ih =>
    rw [List.range_succ, List.map_append, List.map_append, List.flatten_append,
      List.flatten_append]
    by_cases hin : i = n
    · subst hin
      have heq : (List.range i).map (fun j => if i = j then x :: g j else g j)
          = (List.range i).map g := by
        apply List.map_congr_left
        intro j hj
        rw [if_neg (by have := List.mem_range.1 hj; omega)]
      have h3 : [i].map (fun j => if i = j then x :: g j else g j)
          = [x :: g i] := by simp
      have h4 : [i].map g = [g i] := by simp
      rw [heq, h3, h4]
      simp only [List.flatten_cons, List.flatten_nil, List.append_nil]
      exact List.perm_middle
    · have hi2 : i < n := by omega
      have heq : [n].map (fun j => if i = j then x :: g j else g j)
          = [n].map g := by simp [hin]
      rw [heq]
      have e : (x :: ((List.range n).map g).flatten) ++ ([n].map g).flatten
          = x :: (((List.range n).map g).flatten ++ ([n].map g).flatten) :=
        List.cons_append _ _ _
      exact e ▸ ((ih hi2).append_right _)

/-- Splitting a list into the fibers of an index function and concatenating
the fibers permutes the list. -/
theorem fibers_perm (f : α → Nat) (n : Nat) (l : List α)
    (hf : ∀ x ∈ l, f x < n) :
    ((List.range n).map (fun j => l.filter (fun x => decide (f x = j)))).flatten.Perm
      l := by
  induction l with
  | nil =>
    have heq : (List.range n).map
        (fun j => List.filter (fun x => decide (f x = j)) ([] : List α))
        = List.replicate n [] := by
      rw [show (fun j => List.filter (fun x => decide (f x = j)) ([] : List α))
        = fun _ => ([] : List α) from rfl, List.map_const', List.length_range]
    rw [heq, flatten_replicate_nil]
  | cons x xs ih =>
    have hx := hf x (List.mem_cons_self _ _)
    have hxs : ∀ y ∈ xs, f y < n := fun y hy => hf y (List.mem_cons_of_mem _ hy)
    have heq : (List.range n).map
          (fun j => (x :: xs).filter (fun y => decide (f y = j)))
        = (List.range n).map (fun j =>
            if f x = j then x :: xs.filter (fun y => decide (f y = j))
            else xs.filter (fun y => decide (f y = j))) := by
      apply List.map_congr_left
      intro j _
      rw [List.filter_cons]
      by_cases hfx : f x = j
      · rw [if_pos (by simp [hfx]), if_pos hfx]
      · rw [if_neg (by simp [hfx]), if_neg hfx]
    rw [heq]
    exact (flatten_map_ite_cons n (f x) hx x _).trans ((ih hxs).cons x)

end PermFacts

section RehashWF

variable {K V : Type} [DecidableEq K] [Inhabited V]

/-- The rebuilt table, bucket by bucket, is the range-indexed list of hash
fibers of the old entry sequence. -/
theorem Rehash_table_eq_map {s : HashMapState K V} (hwf : WF s)
    (hb : LoadBreach s) :
    (Rehash s).table = (List.range (newBucketCnt s)).map
      (fun j => s.table.flatten.filter
        (fun el => decide (s.hasher el.1 % newBucketCnt s = j))) := by
  apply List.ext_get
  · rw [Rehash_table_length hb, List.length_map, List.length_range]
  · intro i h1 h2
    rw [← getD_eq_get _ _ _ h1, Rehash_getD hwf hb i, List.get_eq_getElem,
      List.getElem_map, List.getElem_range]

/-- Redistribution permutes the stored entries: nothing is lost, duplicated or
invented. -/
theorem Rehash_flatten_perm {s : HashMapState K V} (hwf : WF s)
    (hb : LoadBreach s) :
    (Rehash s).table.flatten.Perm s.table.flatten := by
  rw [Rehash_table_eq_map hwf hb]
  exact fibers_perm _ _ _ (fun x _ => Nat.mod_lt _ (newBucketCnt_pos hwf hb))

/-- `Rehash` preserves well-formedness. -/
theorem WF_Rehash {s : HashMapState K V} (hwf : WF s) : WF (Rehash s) := by
  by_cases hb : LoadBreach s
  · have hn := newBucketCnt_pos hwf hb
    have hperm := Rehash_flatten_perm hwf hb
    refine ⟨?_, ?_, ?_, ?_, ?_, ?_, ?_⟩
    · rw [Rehash_parts]
      exact hwf.parts_pos
    · rw [Rehash_buckets_of_breach hb]
      exact hn
    · rw [Rehash_parts, Rehash_buckets_of_breach hb]
      exact (newBucketCnt_spec hwf.parts_pos).1
    · rw [Rehash_buckets_of_breach hb, Rehash_table_length hb]
    · rw [Rehash_size, hperm.length_eq]
      exact hwf.size_eq
    · intro i hi p hp
      rw [← getD_eq_get _ _ _ hi, Rehash_getD hwf hb i] at hp
      have hd := (List.mem_filter.1 hp).2
      rw [decide_eq_true_eq] at hd
      rw [Rehash_hasher, Rehash_buckets_of_breach hb]
      exact hd
    · exact hwf.keys_nodup.perm (hperm.map Prod.fst).symm
  · rw [Rehash_of_not_breach hb]
    exact hwf

/-- Whether or not the breach re-validates, redistribution permutes the
stored entries (without a breach it is the identity). -/
theorem Rehash_flatten_perm_any {s : HashMapState K V} (hwf : WF s) :
    (Rehash s).table.flatten.Perm s.table.flatten := by
  by_cases hb : LoadBreach s
  · exact Rehash_flatten_perm hwf hb
  · rw [Rehash_of_not_breach hb]

/-- `Rehash` preserves the stored key/value pairs. -/
theorem Rehash_hasEntry {s : HashMapState K V} (hwf : WF s) (k : K) (v : V) :
    HasEntry (Rehash s) k v ↔ HasEntry s k v :=
  (Rehash_flatten_perm_any hwf).mem_iff

end RehashWF

section OpFacts

variable {α : Type}

/-- Appending an element to one bucket permutes the flattened entries with the
new element pulled to the front. -/
theorem set_append_flatten_perm (L : List (List α)) (i : Nat)
    (hi : i < L.length) (x : α) :
    ((L.set i (L.getD i [] ++ [x])).flatten).Perm (x :: L.flatten) := by
  rw [flatten_set _ _ _ hi, getD_eq_get _ _ _ hi]
  conv_rhs => rw [flatten_decomp L i hi]
  have e1 : (L.take i).flatten ++ (L.get ⟨i, hi⟩ ++ [x]) ++ (L.drop (i + 1)).flatten
      = ((L.take i).flatten ++ L.get ⟨i, hi⟩) ++ (x :: (L.drop (i + 1)).flatten) := by
    simp [List.append_assoc]
  rw [e1]
  exact List.perm_middle

/-- Removing one occurrence from one bucket permutes the old flattened entries
with the removed element pulled to the front of the new ones. -/
theorem set_remove_flatten_perm (L : List (List α)) (i : Nat)
    (hi : i < L.length) (x : α) (l1 l2 : List α)
    (hchain : L.getD i [] = l1 ++ x :: l2) :
    L.flatten.Perm (x :: (L.set i (l1 ++ l2)).flatten) := by
  rw [flatten_set _ _ _ hi]
  conv_lhs => rw [flatten_decomp L i hi]
  rw [← getD_eq_get _ _ _ hi, hchain]
  have e1 : (L.take i).flatten ++ (l1 ++ x :: l2) ++ (L.drop (i + 1)).flatten
      = ((L.take i).flatten ++ l1) ++ (x :: (l2 ++ (L.drop (i + 1)).flatten)) := by
    simp [List.append_assoc]
  have e2 : x :: ((L.take i).flatten ++ (l1 ++ l2) ++ (L.drop (i + 1)).flatten)
      = x :: (((L.take i).flatten ++ l1) ++ (l2 ++ (L.drop (i + 1)).flatten)) := by
    simp [List.append_assoc]
  rw [e1, e2]
  exact List.perm_middle

variable {K V : Type} [DecidableEq K] [Inhabited V]

/-- On a duplicate key, `Insert` answers `false` and changes nothing. -/
theorem Insert_of_mem {s : HashMapState K V} (hwf : WF s) {k : K} (v : V)
    {w : V} (hmem : HasEntry s k w) : Insert s k v = (false, s) := by
  have hc : containsKey (s.table.getD (s.hasher k % s.buckets) []) k = true :=
    (hwf.containsKey_own k).2 ⟨w, hmem⟩
  simp only [Insert]
  rw [if_pos hc]

/-- On a fresh key, `Insert` appends and then runs the growth check; since
`Rehash` re-validates the identical condition, the result is the rehash of the
appended state in both branches. -/
theorem Insert_not_contains_eq {s : HashMapState K V} {k : K} {v : V}
    (hc : ¬containsKey (s.table.getD (s.hasher k % s.buckets) []) k = true) :
    Insert s k v =
      (true, Rehash { s with
        table := s.table.set (s.hasher k % s.buckets)
          (s.table.getD (s.hasher k % s.buckets) [] ++ [(k, v)]),
        size := s.size + 1 }) := by
  simp only [Insert]
  rw [if_neg hc]
  split
  · rfl
  · rw [Rehash_of_not_breach (by assumption)]

/-- The appended state is well-formed, and its entries are the old ones plus
the new pair. -/
theorem WF_set_append {s : HashMapState K V} (hwf : WF s) (k : K) (v : V)
    (habs : ∀ w, ¬HasEntry s k w) (t : HashMapState K V)
    (ht : t = { s with
      table := s.table.set (s.hasher k % s.buckets)
        (s.table.getD (s.hasher k % s.buckets) [] ++ [(k, v)]),
      size := s.size + 1 }) :
    WF t ∧ t.table.flatten.Perm ((k, v) :: s.table.flatten) := by
  subst ht
  have hlt : s.hasher k % s.buckets < s.table.length := hwf.bucketIndex_lt k
  have hperm := set_append_flatten_perm s.table (s.hasher k % s.buckets) hlt (k, v)
  refine ⟨⟨hwf.parts_pos, hwf.buckets_pos, hwf.parts_dvd, ?_, ?_, ?_, ?_⟩, hperm⟩
  · rw [List.length_set]
    exact hwf.buckets_eq_length
  · rw [hperm.length_eq, List.length_cons, hwf.size_eq]
  · have hgetD : ∀ i, ∀ p ∈ (s.table.set (s.hasher k % s.buckets)
        (s.table.getD (s.hasher k % s.buckets) [] ++ [(k, v)])).getD i [],
        s.hasher p.1 % s.buckets = i := by
      intro i p hp
      by_cases hieq : i = s.hasher k % s.buckets
      · subst hieq
        rw [getD_set_self _ _ _ _ hlt] at hp
        rcases List.mem_append.1 hp with hp2 | hp2
        · exact hwf.placementD _ p hp2
        · rw [List.mem_singleton] at hp2
          subst hp2
          rfl
      · rw [getD_set_ne _ _ _ _ _ (Ne.symm hieq)] at hp
        exact hwf.placementD i p hp
    intro i hi p hp
    exact hgetD i p (by rw [getD_eq_get _ _ _ hi]; exact hp)
  · refine List.Nodup.perm ?_ (hperm.map Prod.fst).symm
    rw [List.map_cons]
    exact List.nodup_cons.2 ⟨hwf.key_not_in_keys k habs, hwf.keys_nodup⟩

/-- On a fresh key, `Insert` answers `true`, keeps well-formedness, bumps the
size by one, keeps the partitions and hash function, never shrinks the bucket
count, and stores exactly the old entries plus the new pair. -/
theorem Insert_of_not_mem {s : HashMapState K V} (hwf : WF s) (k : K) (v : V)
    (habs : ∀ w, ¬HasEntry s k w) :
    (Insert s k v).1 = true ∧ WF (Insert s k v).2 ∧
    (Insert s k v).2.size = s.size + 1 ∧
    (Insert s k v).2.parts = s.parts ∧
    s.buckets ≤ (Insert s k v).2.buckets ∧
    (Insert s k v).2.hasher = s.hasher ∧
    (∀ a b, HasEntry (Insert s k v).2 a b ↔ (a, b) = (k, v) ∨ HasEntry s a b) := by
  have hc : ¬containsKey (s.table.getD (s.hasher k % s.buckets) []) k = true := by
    intro h
    rcases (hwf.containsKey_own k).1 h with ⟨w, hw⟩
    exact habs w hw
  obtain ⟨hwf1, hperm1⟩ := WF_set_append hwf k v habs _ rfl
  rw [Insert_not_contains_eq hc]
  refine ⟨rfl, WF_Rehash hwf1, ?_, ?_, ?_, ?_, ?_⟩
  · rw [Rehash_size]
  · rw [Rehash_parts]
  · by_cases hb : LoadBreach { s with
        table := s.table.set (s.hasher k % s.buckets)
          (s.table.getD (s.hasher k % s.buckets) [] ++ [(k, v)]),
        size := s.size + 1 }
    · rw [Rehash_buckets_of_breach hb]
      exact le_of_lt (buckets_lt_newBucketCnt hwf1 hb)
    · rw [Rehash_of_not_breach hb]
  · rw [Rehash_hasher]
  · intro a b
    simp only [HasEntry]
    rw [(Rehash_flatten_perm_any hwf1).mem_iff, hperm1.mem_iff, List.mem_cons]

/-- On an absent key, `Erase` answers `false` and changes nothing. -/
theorem Erase_of_not_mem {s : HashMapState K V} (hwf : WF s) {k : K}
    (habs : ∀ w, ¬HasEntry s k w) : Erase s k = (false, s) := by
  have hnk : k ∉ (s.table.getD (s.hasher k % s.buckets) []).map Prod.fst := by
    intro hk
    rcases List.mem_map.1 hk with ⟨⟨k1, w⟩, hp, hkey⟩
    cases hkey
    exact habs w ((hwf.hasEntry_iff_own k1 w).2 hp)
  simp only [Erase]
  rw [findKeyIdx_of_not_mem hnk, if_pos rfl]

/-- When the counting scan stops early, `Erase` removes the entry it stopped
at and decrements the size. -/
theorem Erase_found_eq {s : HashMapState K V} {k : K}
    (hne : findKeyIdx (s.table.getD (s.hasher k % s.buckets) []) k ≠
      (s.table.getD (s.hasher k % s.buckets) []).length) :
    Erase s k = (true, { s with
      table := s.table.set (s.hasher k % s.buckets)
        ((s.table.getD (s.hasher k % s.buckets) []).eraseIdx
          (findKeyIdx (s.table.getD (s.hasher k % s.buckets) []) k)),
      size := s.size - 1 }) := by
  simp only [Erase]
  rw [if_neg hne]

/-- Removing the key's entry from its bucket keeps well-formedness; the old
entries are the new ones plus that entry, and the size drops by one. -/
theorem WF_set_remove {s : HashMapState K V} (hwf : WF s) (k : K) (v0 : V)
    (l1 l2 : List (K × V))
    (hdec : s.table.getD (s.hasher k % s.buckets) [] = l1 ++ (k, v0) :: l2)
    (t : HashMapState K V)
    (ht : t = { s with
      table := s.table.set (s.hasher k % s.buckets) (l1 ++ l2),
      size := s.size - 1 }) :
    WF t ∧ s.table.flatten.Perm ((k, v0) :: t.table.flatten) ∧
      t.size + 1 = s.size := by
  subst ht
  have hlt : s.hasher k % s.buckets < s.table.length := hwf.bucketIndex_lt k
  have hperm := set_remove_flatten_perm s.table (s.hasher k % s.buckets) hlt
    (k, v0) l1 l2 hdec
  have hlen : s.table.flatten.length =
      ((s.table.set (s.hasher k % s.buckets) (l1 ++ l2)).flatten).length + 1 := by
    rw [hperm.length_eq, List.length_cons]
  have hsz := hwf.size_eq
  refine ⟨⟨hwf.parts_pos, hwf.buckets_pos, hwf.parts_dvd, ?_, ?_, ?_, ?_⟩,
    hperm, ?_⟩
  · rw [List.length_set]
    exact hwf.buckets_eq_length
  · show s.size - 1 =
      (s.table.set (s.hasher k % s.buckets) (l1 ++ l2)).flatten.length
    omega
  · have hgetD : ∀ i, ∀ p ∈ (s.table.set (s.hasher k % s.buckets)
        (l1 ++ l2)).getD i [], s.hasher p.1 % s.buckets = i := by
      intro i p hp
      by_cases hieq : i = s.hasher k % s.buckets
      · subst hieq
        rw [getD_set_self _ _ _ _ hlt] at hp
        apply hwf.placementD
        rw [hdec]
        rcases List.mem_append.1 hp with h1 | h1
        · exact List.mem_append.2 (Or.inl h1)
        · exact List.mem_append.2 (Or.inr (List.mem_cons_of_mem _ h1))
      · rw [getD_set_ne _ _ _ _ _ (Ne.symm hieq)] at hp
        exact hwf.placementD i p hp
    intro i hi p hp
    exact hgetD i p (by rw [getD_eq_get _ _ _ hi]; exact hp)
  · have h2 := hwf.keys_nodup.perm (hperm.map Prod.fst)
    rw [List.map_cons] at h2
    exact (List.nodup_cons.1 h2).2
  · show s.size - 1 + 1 = s.size
    omega

/-- On a present key, `Erase` answers `true`, keeps well-formedness, drops the
size by one, leaves bucket and partition counts alone, removes every trace of
the key and nothing else. -/
theorem Erase_of_mem {s : HashMapState K V} (hwf : WF s) {k : K} {w : V}
    (hmem : HasEntry s k w) :
    (Erase s k).1 = true ∧ WF (Erase s k).2 ∧
    (Erase s k).2.size + 1 = s.size ∧
    (Erase s k).2.buckets = s.buckets ∧
    (Erase s k).2.parts = s.parts ∧
    (Erase s k).2.hasher = s.hasher ∧
    s.table.flatten.Perm ((k, w) :: (Erase s k).2.table.flatten) ∧
    (∀ u, ¬HasEntry (Erase s k).2 k u) ∧
    (∀ a b, a ≠ k → (HasEntry (Erase s k).2 a b ↔ HasEntry s a b)) := by
  have hown : (k, w) ∈ s.table.getD (s.hasher k % s.buckets) [] :=
    (hwf.hasEntry_iff_own k w).1 hmem
  have hkmem : k ∈ (s.table.getD (s.hasher k % s.buckets) []).map Prod.fst :=
    List.mem_map_of_mem Prod.fst hown
  obtain ⟨l1, v0, l2, hdec, hnm1, hidx, herase, hlt2⟩ := findKeyIdx_spec hkmem
  have hnd := hwf.own_nodup (s.hasher k % s.buckets)
  rw [hdec] at hnd
  simp only [List.map_append, List.map_cons] at hnd
  have hkl2 : k ∉ l2.map Prod.fst :=
    (List.nodup_cons.1 (List.nodup_append.1 hnd).2.1).1
  have hwv : w = v0 := by
    rw [hdec] at hown
    rcases List.mem_append.1 hown with h1 | h1
    · exact absurd (List.mem_map_of_mem Prod.fst h1) hnm1
    · rcases List.mem_cons.1 h1 with heq | h1
      · exact congrArg Prod.snd heq
      · exact absurd (List.mem_map_of_mem Prod.fst h1) hkl2
  subst hwv
  have hne : findKeyIdx (s.table.getD (s.hasher k % s.buckets) []) k ≠
      (s.table.getD (s.hasher k % s.buckets) []).length := Nat.ne_of_lt hlt2
  have hE : Erase s k = (true, { s with
      table := s.table.set (s.hasher k % s.buckets) (l1 ++ l2),
      size := s.size - 1 }) := by
    rw [Erase_found_eq hne, herase]
  obtain ⟨hwft, hperm, hszt⟩ := WF_set_remove hwf k w l1 l2 hdec _ rfl
  rw [hE]
  refine ⟨rfl, hwft, hszt, rfl, rfl, rfl, hperm, ?_, ?_⟩
  · intro u hu
    have hu2 : (k, u) ∈ ({ s with
        table := s.table.set (s.hasher k % s.buckets) (l1 ++ l2),
        size := s.size - 1 } : HashMapState K V).table.flatten := hu
    have h2 := hwf.keys_nodup.perm (hperm.map Prod.fst)
    rw [List.map_cons] at h2
    exact (List.nodup_cons.1 h2).1 (List.mem_map.2 ⟨(k, u), hu2, rfl⟩)
  · intro a b hne2
    show (a, b) ∈ _ ↔ HasEntry s a b
    unfold HasEntry
    rw [hperm.mem_iff, List.mem_cons]
    constructor
    · exact fun h1 => Or.inr h1
    · rintro (heq | h1)
      · exact absurd (congrArg Prod.fst heq) hne2
      · exact h1

/-- After `Clear`, every bucket read yields the empty chain. -/
theorem Clear_getD (s : HashMapState K V) (i : Nat) :
    (Clear s).table.getD i [] = [] := by
  show (s.table.map (fun _ => [])).getD i [] = []
  rw [List.map_const']
  exact getD_replicate _ _ _

/-- `Clear` preserves well-formedness. -/
theorem WF_Clear {s : HashMapState K V} (hwf : WF s) : WF (Clear s) := by
  refine ⟨hwf.parts_pos, hwf.buckets_pos, hwf.parts_dvd, ?_, ?_, ?_, ?_⟩
  · show s.buckets = (s.table.map (fun _ => [])).length
    rw [List.length_map]
    exact hwf.buckets_eq_length
  · show 0 = (s.table.map (fun _ => ([] : List (K × V)))).flatten.length
    rw [List.map_const', flatten_replicate_nil]
    rfl
  · intro i hi p hp
    have hp2 : p ∈ (Clear s).table.getD i [] := by
      rw [getD_eq_get _ _ _ hi]
      exact hp
    rw [Clear_getD] at hp2
    exact absurd hp2 (List.not_mem_nil p)
  · show ((s.table.map (fun _ => ([] : List (K × V)))).flatten.map Prod.fst).Nodup
    rw [List.map_const', flatten_replicate_nil]
    exact List.nodup_nil

/-- A freshly allocated table of empty buckets is well-formed. -/
theorem WF_empty_table (n p : Nat) (hasher : K → Nat) (hp : 0 < p)
    (hn : 0 < n) (hdvd : p ∣ n) :
    WF ({ table := List.replicate n [], parts := p, size := 0,
          buckets := n, hasher := hasher } : HashMapState K V) := by
  refine ⟨hp, hn, hdvd, ?_, ?_, ?_, ?_⟩
  · rw [List.length_replicate]
  · rw [flatten_replicate_nil]
    rfl
  · intro i hi p2 hp2
    rw [List.get_eq_getElem, List.getElem_replicate] at hp2
    exact absurd hp2 (List.not_mem_nil p2)
  · rw [flatten_replicate_nil]
    exact List.nodup_nil

/-- The mutex count is at least the clamp value 8. -/
theorem threadsCnt_ge (tc : Int) : 8 ≤ threadsCnt tc := by
  unfold threadsCnt
  have h := le_max_left (8 : Int) tc
  omega

/-- For an in-range `int` thread hint the mutex count is in `int` range. -/
theorem threadsCnt_le {tc : Int} (htc : tc ≤ 2 ^ 31 - 1) :
    threadsCnt tc ≤ 2 ^ 31 - 1 := by
  unfold threadsCnt
  have h : max 8 tc ≤ 2 ^ 31 - 1 := max_le (by norm_num) htc
  omega

/-- For a positive in-range expected size, the constructor's bucket count is
positive and a multiple of the mutex count (no `size_t` wrap occurs). -/
theorem initBuckets_spec (es tc : Int) (h1 : 1 ≤ es) (h2 : es ≤ 2 ^ 31 - 1)
    (htc : tc ≤ 2 ^ 31 - 1) :
    0 < initBuckets es tc ∧ threadsCnt tc ∣ initBuckets es tc := by
  have ht8 := threadsCnt_ge tc
  have htub := threadsCnt_le htc
  simp only [initBuckets, kLoadFactor, Nat.cast_ofNat]
  have h0 : (0 : Int) ≤ es + 3 - 1 := by omega
  have htd : (es + 3 - 1).tdiv 3 = (es + 3 - 1) / 3 :=
    Int.tdiv_eq_ediv h0 (by norm_num)
  have hg1 : 1 ≤ (es + 3 - 1) / 3 := by omega
  have hg2 : (es + 3 - 1) / 3 ≤ 2 ^ 31 - 1 := by omega
  rw [htd, Int.emod_eq_of_lt (by omega) (by omega)]
  set u := ((es + 3 - 1) / 3).toNat with hu
  have hu1 : 1 ≤ u := by omega
  have hu2 : u ≤ 2 ^ 31 - 1 := by omega
  by_cases hm : u % threadsCnt tc = 0
  · rw [if_pos hm]
    exact ⟨by omega, Nat.dvd_of_mod_eq_zero hm⟩
  · rw [if_neg hm]
    have hmlt : u % threadsCnt tc < threadsCnt tc := Nat.mod_lt _ (by omega)
    have hmle : u % threadsCnt tc ≤ u := Nat.mod_le _ _
    have hlt64 : u + threadsCnt tc - u % threadsCnt tc < 2 ^ 64 := by omega
    rw [Nat.mod_eq_of_lt hlt64]
    have hs := roundUp_spec u (threadsCnt tc) (by omega)
    rw [if_neg hm] at hs
    exact ⟨by omega, hs.1⟩

/-- Defined-behaviour constructions are well-formed. -/
theorem WF_mk (es tc : Int) (hasher : K → Nat)
    (hes : es = kUndefinedSize ∨ (1 ≤ es ∧ es ≤ 2 ^ 31 - 1))
    (htc : tc ≤ 2 ^ 31 - 1) :
    WF (mkConcurrentHashMap (K := K) (V := V) es tc hasher) := by
  have ht8 := threadsCnt_ge tc
  rcases hes with rfl | ⟨h1, h2⟩
  · rw [mkConcurrentHashMap, if_pos rfl]
    exact WF_empty_table _ _ _ (by omega) (by omega) (dvd_refl _)
  · have hne : es ≠ kUndefinedSize := by
      simp only [kUndefinedSize]
      omega
    rw [mkConcurrentHashMap, if_neg hne]
    obtain ⟨hpos, hdvd⟩ := initBuckets_spec es tc h1 h2 htc
    exact WF_empty_table _ _ _ (by omega) hpos hdvd

/-- `Insert` preserves well-formedness. -/
theorem WF_Insert {s : HashMapState K V} (hwf : WF s) (k : K) (v : V) :
    WF (Insert s k v).2 := by
  by_cases hc : containsKey (s.table.getD (s.hasher k % s.buckets) []) k = true
  · have hE : Insert s k v = (false, s) := by
      simp only [Insert]
      rw [if_pos hc]
    rw [hE]
    exact hwf
  · have habs : ∀ w, ¬HasEntry s k w := by
      intro w hw
      exact hc ((hwf.containsKey_own k).2 ⟨w, hw⟩)
    exact (Insert_of_not_mem hwf k v habs).2.1

/-- `Erase` preserves well-formedness. -/
theorem WF_Erase {s : HashMapState K V} (hwf : WF s) (k : K) :
    WF (Erase s k).2 := by
  by_cases hp : ∃ w, HasEntry s k w
  · rcases hp with ⟨w, hw⟩
    exact (Erase_of_mem hwf hw).2.1
  · push_neg at hp
    rw [Erase_of_not_mem hwf hp]
    exact hwf

/-- Every reachable state is well-formed: the central invariant. -/
theorem wf_of_reachable {s : HashMapState K V} (h : Reachable s) : WF s := by
  induction h with
  | ctor es tc hasher hes htc => exact WF_mk es tc hasher hes htc
  | insertStep s k v _ ih => exact WF_Insert ih k v
  | eraseStep s k _ ih => exact WF_Erase ih k
  | clearStep s _ ih => exact WF_Clear ih
  | rehashStep s _ ih => exact WF_Rehash ih

/-- The defined-behaviour states are among the reachable ones: the size bound
`expected_size ≤ 2^31 - 4` is tighter than `Reachable`'s `2^31 - 1`. -/
theorem reachable_of_reachableDefined {s : HashMapState K V}
    (h : ReachableDefined s) : Reachable s := by
  induction h with
  | ctor es tc hasher hes htc =>
    refine Reachable.ctor es tc hasher ?_ htc
    rcases hes with h1 | ⟨h1, h2⟩
    · exact Or.inl h1
    · exact Or.inr ⟨h1, by omega⟩
  | insertStep s k v _ ih => exact Reachable.insertStep s k v ih
  | eraseStep s k _ ih => exact Reachable.eraseStep s k ih
  | clearStep s _ ih => exact Reachable.clearStep s ih
  | rehashStep s _ ih => exact Reachable.rehashStep s ih

end OpFacts

section Claims

/-- Claim C1, counterexample: the claim quantifies over every construction
input, but constructing with `expected_size = 0` (and the default eight
threads) yields a zero-length table — `ceil(0 / 3) = 0` rounds up to `0` — so
`bucket_count` is `0`, which is not a positive multiple of the partition
count `8`. -/
theorem claim_C1_counterexample :
    (mkConcurrentHashMap (K := Nat) (V := Nat) 0 8 (fun k => k)).parts = 8 ∧
    (mkConcurrentHashMap (K := Nat) (V := Nat) 0 8 (fun k => k)).buckets = 0 ∧
    ¬(0 < (mkConcurrentHashMap (K := Nat) (V := Nat) 0 8 (fun k => k)).buckets) := by
  decide

/-- Claim C1 (amended): for every construction input whose `expected_size` is
`kUndefinedSize` or positive with `expected_size ≤ INT_MAX - 3`, so that the
constructor's `int` sum `expected_size + kLoadFactor - 1` cannot overflow and
the C++ behaviour is fully defined, and after every sequence of insert,
erase, clear and growth operations, `bucket_count` is a positive multiple of
`partition_count`. -/
theorem claim_C1_amended {K V : Type} [DecidableEq K] [Inhabited V]
    {s : HashMapState K V} (h : ReachableDefined s) :
    0 < s.buckets ∧ s.parts ∣ s.buckets := by
  have hwf := wf_of_reachable (reachable_of_reachableDefined h)
  exact ⟨hwf.buckets_pos, hwf.parts_dvd⟩

/-- Claim C1, witness: the default construction has defined behaviour and
satisfies the amended claim. -/
theorem claim_C1_witness :
    ReachableDefined (mkConcurrentHashMap (K := Nat) (V := Nat) (-1) 8 (fun k => k)) ∧
    (0 < (mkConcurrentHashMap (K := Nat) (V := Nat) (-1) 8 (fun k => k)).buckets ∧
      (mkConcurrentHashMap (K := Nat) (V := Nat) (-1) 8 (fun k => k)).parts ∣
        (mkConcurrentHashMap (K := Nat) (V := Nat) (-1) 8 (fun k => k)).buckets) :=
  ⟨ReachableDefined.ctor (-1) 8 (fun k => k) (Or.inl rfl) (by decide),
   claim_C1_amended (ReachableDefined.ctor (-1) 8 (fun k => k) (Or.inl rfl) (by decide))⟩

/-- Claim C2: in every reachable state, the partition-lock index
`hash % partition_count` picked by a single-key operation equals
`(hash % bucket_count) % partition_count`, the partition owning the bucket
the operation touches, because the partition count divides the bucket
count. -/
theorem claim_C2 {K V : Type} [DecidableEq K] [Inhabited V]
    {s : HashMapState K V} (h : Reachable s) (key : K) :
    lockIndex s key = bucketIndex s key % s.parts := by
  have hwf := wf_of_reachable h
  unfold lockIndex bucketIndex
  exact (Nat.mod_mod_of_dvd _ hwf.parts_dvd).symm

/-- Claim C2, witness: the lock and owner-partition indices agree for key 13
in a freshly constructed map. -/
theorem claim_C2_witness :
    lockIndex (mkConcurrentHashMap (K := Nat) (V := Nat) (-1) 8 (fun k => k)) 13 =
      bucketIndex (mkConcurrentHashMap (K := Nat) (V := Nat) (-1) 8 (fun k => k)) 13 %
        (mkConcurrentHashMap (K := Nat) (V := Nat) (-1) 8 (fun k => k)).parts :=
  claim_C2 (Reachable.ctor (-1) 8 (fun k => k) (Or.inl rfl) (by decide)) 13

/-- Claim C6: in every reachable quiescent state the size counter equals the
sum of the chain lengths over all buckets, so `Size` reports the exact number
of live entries. -/
theorem claim_C6 {K V : Type} [DecidableEq K] [Inhabited V]
    {s : HashMapState K V} (h : Reachable s) :
    Size s = (s.table.map List.length).sum := by
  have hwf := wf_of_reachable h
  unfold Size
  rw [hwf.size_eq, List.length_flatten]

/-- Claim C6, witness: the counter matches the chains after an insertion into
a fresh map. -/
theorem claim_C6_witness :
    Size (Insert (mkConcurrentHashMap (K := Nat) (V := Nat) (-1) 8
        (fun k => k)) 3 30).2 =
      ((Insert (mkConcurrentHashMap (K := Nat) (V := Nat) (-1) 8
        (fun k => k)) 3 30).2.table.map List.length).sum :=
  claim_C6 (Reachable.insertStep _ 3 30
    (Reachable.ctor (-1) 8 (fun k => k) (Or.inl rfl) (by decide)))

/-- Claim C3: on a present key `Insert` returns `false` and leaves the state
(hence the stored value) unchanged; on an absent key it returns `true`,
increments the size counter by one, and stores the pair in the bucket its
hash selects under the resulting bucket count (which is the appended-to
bucket, redistributed if the insertion triggered growth). -/
theorem claim_C3 {K V : Type} [DecidableEq K] [Inhabited V]
    {s : HashMapState K V} (hwf : WF s) (k : K) (v : V) :
    ((∃ w, HasEntry s k w) → Insert s k v = (false, s)) ∧
    ((∀ w, ¬HasEntry s k w) →
      (Insert s k v).1 = true ∧
      (Insert s k v).2.size = s.size + 1 ∧
      HasEntry (Insert s k v).2 k v ∧
      (k, v) ∈ (Insert s k v).2.table.getD
        (s.hasher k % (Insert s k v).2.buckets) []) := by
  constructor
  · rintro ⟨w, hw⟩
    exact Insert_of_mem hwf v hw
  · intro habs
    obtain ⟨h1, h2, h3, _, _, h6, h7⟩ := Insert_of_not_mem hwf k v habs
    have hmem : HasEntry (Insert s k v).2 k v := (h7 k v).2 (Or.inl rfl)
    refine ⟨h1, h3, hmem, ?_⟩
    have h8 := (h2.hasEntry_iff_own k v).1 hmem
    rw [h6] at h8
    exact h8

/-- Claim C3, witness: inserting the fresh key 7 into the sample state. -/
theorem claim_C3_witness :
    WF sampleState ∧
    (((∃ w, HasEntry sampleState 7 w) →
        Insert sampleState 7 99 = (false, sampleState)) ∧
     ((∀ w, ¬HasEntry sampleState 7 w) →
        (Insert sampleState 7 99).1 = true ∧
        (Insert sampleState 7 99).2.size = sampleState.size + 1 ∧
        HasEntry (Insert sampleState 7 99).2 7 99 ∧
        (7, 99) ∈ (Insert sampleState 7 99).2.table.getD
          (sampleState.hasher 7 % (Insert sampleState 7 99).2.buckets) [])) :=
  ⟨by decide, claim_C3 (by decide) 7 99⟩

/-- Claim C4: when the re-validated breach holds, growth preserves the map's
contents — every entry present before is present after with its value and
sits in the bucket its hash selects modulo the new bucket count, and no entry
appears from nowhere. -/
theorem claim_C4 {K V : Type} [DecidableEq K] [Inhabited V]
    {s : HashMapState K V} (hwf : WF s) (hb : LoadBreach s) :
    (∀ k v, HasEntry (Rehash s) k v ↔ HasEntry s k v) ∧
    (∀ k v, HasEntry (Rehash s) k v →
      (k, v) ∈ (Rehash s).table.getD (s.hasher k % (Rehash s).buckets) []) := by
  constructor
  · intro k v
    exact Rehash_hasEntry hwf k v
  · intro k v hv
    have h2 := ((WF_Rehash hwf).hasEntry_iff_own k v).1 hv
    rw [Rehash_hasher] at h2
    exact h2

/-- Claim C4, witness: growing the overfull sample state. -/
theorem claim_C4_witness :
    WF overfullState ∧ LoadBreach overfullState ∧
    ((∀ k v, HasEntry (Rehash overfullState) k v ↔ HasEntry overfullState k v) ∧
     (∀ k v, HasEntry (Rehash overfullState) k v →
       (k, v) ∈ (Rehash overfullState).table.getD
         (overfullState.hasher k % (Rehash overfullState).buckets) [])) :=
  ⟨by decide, by decide, claim_C4 (by decide) (by decide)⟩

/-- Claim C5: under a re-validated breach the installed bucket count is the
least multiple of the partition count at least the current size, and it never
goes below the prior bucket count; without a breach `Rehash` changes
nothing. -/
theorem claim_C5 {K V : Type} [DecidableEq K] [Inhabited V]
    {s : HashMapState K V} (hwf : WF s) :
    (LoadBreach s →
      s.parts ∣ (Rehash s).buckets ∧
      s.size ≤ (Rehash s).buckets ∧
      (∀ m, s.parts ∣ m → s.size ≤ m → (Rehash s).buckets ≤ m) ∧
      s.buckets ≤ (Rehash s).buckets) ∧
    (¬LoadBreach s → Rehash s = s) := by
  constructor
  · intro hb
    rw [Rehash_buckets_of_breach hb]
    obtain ⟨hd, hle, hmin⟩ := newBucketCnt_spec hwf.parts_pos
    exact ⟨hd, hle, hmin, le_of_lt (buckets_lt_newBucketCnt hwf hb)⟩
  · exact Rehash_of_not_breach

/-- Claim C5, witness: the overfull sample state grows to the least multiple
of the partition count at least its size. -/
theorem claim_C5_witness :
    WF overfullState ∧
    ((LoadBreach overfullState →
      overfullState.parts ∣ (Rehash overfullState).buckets ∧
      overfullState.size ≤ (Rehash overfullState).buckets ∧
      (∀ m, overfullState.parts ∣ m → overfullState.size ≤ m →
        (Rehash overfullState).buckets ≤ m) ∧
      overfullState.buckets ≤ (Rehash overfullState).buckets) ∧
    (¬LoadBreach overfullState → Rehash overfullState = overfullState)) :=
  ⟨by decide, claim_C5 (by decide)⟩

/-- Claim C7: `Erase` answers `true` exactly when the key is present; then it
removes that key (and nothing else), decrements the size counter by one, and
a following `Find` misses; on an absent key it answers `false` and changes
nothing; and it never changes the bucket count. -/
theorem claim_C7 {K V : Type} [DecidableEq K] [Inhabited V]
    {s : HashMapState K V} (hwf : WF s) (k : K) :
    ((Erase s k).1 = true ↔ ∃ v, HasEntry s k v) ∧
    ((∀ v, ¬HasEntry s k v) → Erase s k = (false, s)) ∧
    (∀ v, HasEntry s k v →
      (Erase s k).2.size + 1 = s.size ∧
      (∀ u, ¬HasEntry (Erase s k).2 k u) ∧
      (Find (Erase s k).2 k).1 = false ∧
      (∀ a b, a ≠ k → (HasEntry (Erase s k).2 a b ↔ HasEntry s a b))) ∧
    (Erase s k).2.buckets = s.buckets := by
  by_cases hp : ∃ v, HasEntry s k v
  · rcases hp with ⟨v, hv⟩
    obtain ⟨h1, h2, h3, h4, _, _, _, h8, h9⟩ := Erase_of_mem hwf hv
    refine ⟨⟨fun _ => ⟨v, hv⟩, fun _ => h1⟩, ?_, ?_, h4⟩
    · intro habs
      exact absurd hv (habs v)
    · intro w _
      refine ⟨h3, h8, ?_, h9⟩
      have hnone : chainFind ((Erase s k).2.table.getD
          ((Erase s k).2.hasher k % (Erase s k).2.buckets) []) k = none :=
        (h2.chainFind_own_none k).2 h8
      simp only [Find, hnone]
  · push_neg at hp
    have hE := Erase_of_not_mem hwf hp
    refine ⟨?_, fun _ => hE, ?_, ?_⟩
    · rw [hE]
      constructor
      · intro h
        exact absurd h (by simp)
      · rintro ⟨v, hv⟩
        exact absurd hv (hp v)
    · intro v hv
      exact absurd hv (hp v)
    · rw [hE]

/-- Claim C7, witness: erasing the present key 5 from the sample state. -/
theorem claim_C7_witness :
    WF sampleState ∧
    (((Erase sampleState 5).1 = true ↔ ∃ v, HasEntry sampleState 5 v) ∧
     ((∀ v, ¬HasEntry sampleState 5 v) → Erase sampleState 5 = (false, sampleState)) ∧
     (∀ v, HasEntry sampleState 5 v →
       (Erase sampleState 5).2.size + 1 = sampleState.size ∧
       (∀ u, ¬HasEntry (Erase sampleState 5).2 5 u) ∧
       (Find (Erase sampleState 5).2 5).1 = false ∧
       (∀ a b, a ≠ 5 →
         (HasEntry (Erase sampleState 5).2 a b ↔ HasEntry sampleState a b))) ∧
     (Erase sampleState 5).2.buckets = sampleState.buckets) :=
  ⟨by decide, claim_C7 (by decide) 5⟩

/-- Claim C8: `Find` returns the stored value on a hit and an empty result on
a miss; `At` returns the stored value on a hit and signals the NotFound error
exactly on a miss.  (Both are `const` in the source and are modelled as pure
functions of the state, so neither can modify the map.) -/
theorem claim_C8 {K V : Type} [DecidableEq K] [Inhabited V]
    {s : HashMapState K V} (hwf : WF s) (k : K) :
    (∀ v, HasEntry s k v → Find s k = (true, v) ∧ At s k = Except.ok v) ∧
    ((∀ v, ¬HasEntry s k v) →
      (Find s k).1 = false ∧ At s k = Except.error "No such element") := by
  constructor
  · intro v hv
    have hsome := (hwf.chainFind_own k v).2 hv
    constructor
    · simp only [Find, hsome]
    · simp only [At, hsome]
  · intro habs
    have hnone := (hwf.chainFind_own_none k).2 habs
    constructor
    · simp only [Find, hnone]
    · simp only [At, hnone]

/-- Claim C8, witness: looking up the present key 0 in the sample state. -/
theorem claim_C8_witness :
    WF sampleState ∧
    ((∀ v, HasEntry sampleState 0 v →
        Find sampleState 0 = (true, v) ∧ At sampleState 0 = Except.ok v) ∧
     ((∀ v, ¬HasEntry sampleState 0 v) →
        (Find sampleState 0).1 = false ∧
        At sampleState 0 = Except.error "No such element")) :=
  ⟨by decide, claim_C8 (by decide) 0⟩

/-- Claim C9: after `Clear` every bucket chain is empty, the size counter is
zero, every `Find` misses and every `At` signals NotFound, while the bucket
count, partition count and table length are untouched. -/
theorem claim_C9 {K V : Type} [DecidableEq K] [Inhabited V]
    (s : HashMapState K V) (k : K) :
    (∀ i, (Clear s).table.getD i [] = []) ∧
    Size (Clear s) = 0 ∧
    (Find (Clear s) k).1 = false ∧
    At (Clear s) k = Except.error "No such element" ∧
    (Clear s).buckets = s.buckets ∧
    (Clear s).parts = s.parts ∧
    (Clear s).table.length = s.table.length := by
  have hnone : chainFind ((Clear s).table.getD
      ((Clear s).hasher k % (Clear s).buckets) []) k = none := by
    rw [Clear_getD]
    rfl
  refine ⟨Clear_getD s, rfl, ?_, ?_, rfl, rfl, ?_⟩
  · simp only [Find, hnone]
  · simp only [At, hnone]
  · show (s.table.map _).length = s.table.length
    exact List.length_map _ _

/-- Claim C10: when the key is already present, `Insert` returns `false`
with the whole state — table, size counter and bucket count — unchanged, so
the growth check (and hence `Rehash`) never runs on that call, whatever the
load factor; growth runs only after a successful insertion. -/
theorem claim_C10 {K V : Type} [DecidableEq K] [Inhabited V]
    {s : HashMapState K V} (hwf : WF s) (k : K) (v w : V)
    (hmem : HasEntry s k w) :
    Insert s k v = (false, s) := by
  exact Insert_of_mem hwf v hmem

/-- Claim C10, witness: re-inserting key 5 into the sample state changes
nothing and answers `false`. -/
theorem claim_C10_witness :
    WF sampleState ∧ HasEntry sampleState 5 50 ∧
    Insert sampleState 5 123 = (false, sampleState) :=
  ⟨by decide, by decide, claim_C10 (by decide) 5 123 50 (by decide)⟩

end Claims

end ConcurrentHashMap
